import Mathlib

/-!
Verification of the link-mirroring engine of `flnk` (`src/link/link_files.rs`,
`src/link/link_options.rs`) against its natural-language specification.

Shallow embedding conventions:

* A filesystem path is its list of components (`Path := List String`).
  Rust's `Path::parent` is `List.dropLast`, `Path::file_name` is the last
  component, `PathBuf::join` is list append.  Whether the *destination*
  argument is a relative path (`Path::is_relative`, i.e. the string does not
  start with `/`) is not recoverable from the component list, so it is passed
  to `link_files` as an explicit boolean argument `destIsRel`.
* The filesystem is a finite association list of existing paths with their
  node kind (`file` or `dir`).  Lookups do not resolve symbolic-link
  components; symbolic links created by the engine are recorded as plain
  nodes carrying the kind of their target (no claim observes the node kind
  of a created link).
* Rust strings are `List Char` in the matcher (`str::find` returns the index
  of the first occurrence; byte indices and character indices coincide on
  the boundaries `find`/`split` produce, so character lists are faithful).
* Fallible Rust code (`io::Result`) becomes `Except Err`.  The `?` operator
  is explicit `Except` plumbing.
* The unbounded probe loop of `create_backup` terminates in reality because
  the filesystem is finite; the embedding makes it total with an explicit
  fuel argument.  Running out of fuel yields `Err.other`, an artifact that
  no real execution reaches.
* Rust `PathBuf::join` with an *empty* relative path appends a trailing
  separator (`"out".join("") = "out/"`); the model records it as a final
  empty component.  The kernel rejects such a destination in `link(2)` and
  `symlink(2)` (`ENOENT` when the underlying path is absent, `EEXIST` when
  it exists), `stat` resolves it only to a directory, and `Path::parent`
  ignores the trailing separator (the parent of `out/` is the empty path).
* `WalkDir` is a lazy depth-first pre-order traversal; the embedding computes
  each root's entry list eagerly against the filesystem state at the moment
  that root's walk starts.  This is equivalent unless an invocation mutates
  the subtree it is currently walking (destination inside the source tree),
  a situation none of the claims concerns.
-/

/-- Error kinds of `io::ErrorKind` that the engine can surface.  The code in
`link_files.rs` itself only ever constructs `notFound` (missing directory or
root), `alreadyExists` (line 207) and `other` (line 184); `invalidPath` is
included so that the spec's claim C9 about an `InvalidPath` failure is
statable. -/
inductive Err where
  | notFound
  | alreadyExists
  | invalidPath
  | other
deriving DecidableEq, Repr

/-- A filesystem path, as its list of components. -/
abbrev FPath := List String

/-- Kind of a filesystem node, `metadata.is_file()` / `metadata.is_dir()`. -/
inductive NodeKind where
  | file
  | dir
deriving DecidableEq, Repr

/-- A model filesystem: the association list of existing paths and their
kinds.  Order of entries is the (implementation-defined) enumeration order
of `fs::read_dir` / `WalkDir`. -/
abbrev FS := List (FPath × NodeKind)

/-- Kind of the node at `p`, `None` when `p` does not exist. -/
def fsFind (fs : FS) (p : FPath) : Option NodeKind :=
  (fs.find? (fun e => decide (e.1 = p))).map (fun e => e.2)

/-- `Path::exists()`, as membership.  A trailing-separator path (final
empty component) is never a stored entry, so it reads as absent; the real
`stat` resolves it when the underlying path is a directory, but in that one
corner the guarded code and the modelled link step produce the same
`EEXIST`/`AlreadyExists` outcome under options no claim exercises
otherwise. -/
def fsExists (fs : FS) (p : FPath) : Bool :=
  (fsFind fs p).isSome

/-- `Path::is_dir()`. -/
def fsIsDir (fs : FS) (p : FPath) : Bool :=
  fsFind fs p == some NodeKind.dir

/-- Remove the node at `p` (model of `fs::remove_file`, kind-checked by its
caller). -/
def fsRemove (fs : FS) (p : FPath) : FS :=
  fs.filter (fun e => decide (¬ e.1 = p))

/-- `fs::rename src dst`: the node at `src` reappears at `dst`. -/
def fsRename (fs : FS) (src dst : FPath) : FS :=
  match fsFind fs src with
  | none => fs
  | some k => (dst, k) :: fsRemove fs src

/-- `LinkOptions` (src/link/link_options.rs, lines 3-16). -/
structure LinkOptions where
  symbolic : Bool
  relative : Bool
  force : Bool
  backup : Bool
  backup_suffix : String
  symlink_files_only : Bool
deriving DecidableEq, Repr

/-- `LinkOptions::default` (src/link/link_options.rs, lines 19-30). -/
def LinkOptions.default : LinkOptions :=
  { symbolic := false
    relative := false
    force := false
    backup := false
    backup_suffix := "~"
    symlink_files_only := false }

/-- One character of the glob-trigger set of `has_glob`
(`matches!(c, '*' | '?' | '[')`, line 58). -/
def isGlobChar (c : Char) : Bool :=
  c = '*' || c = '?' || c = '['

/-- `has_glob` (line 57-59): the pattern string contains a wildcard
character. -/
def has_glob (pattern : String) : Bool :=
  pattern.toList.any isGlobChar

/-- `pattern.split('*')` of Rust for a single-character separator: the list
of (possibly empty) literal segments between the stars.  Never returns the
empty list. -/
def splitStar : List Char → List (List Char)
  | [] => [[]]
  | c :: cs =>
    let r := splitStar cs
    if c = '*' then [] :: r
    else
      match r with
      | [] => [[c]]
      | h :: t => (c :: h) :: t

/-- `str::find(sub)`: index of the first occurrence of `needle` in the
remaining text, `none` when absent. -/
def findSub (needle : List Char) : List Char → Option Nat
  | [] => if needle.isPrefixOf [] then some 0 else none
  | c :: rest =>
    if needle.isPrefixOf (c :: rest) then some 0
    else (findSub needle rest).map (fun i => i + 1)

/-- The `for part in parts` loop of `wildcard_match` (lines 72-81), plus the
final line 82: empty segments are skipped, each non-empty segment is located
at its first occurrence in the unconsumed remainder and consumed, and at the
end the match succeeds iff the pattern ends with `*` or the remainder is
empty. -/
def matchParts (endsStar : Bool) : List Char → List (List Char) → Bool
  | rem, [] => endsStar || rem == []
  | rem, part :: ps =>
    if part = [] then matchParts endsStar rem ps
    else
      match findSub part rem with
      | some i => matchParts endsStar (rem.drop (i + part.length)) ps
      | none => false

/-- `wildcard_match` (lines 61-83), on character lists. -/
def wildcard_match (pattern text : List Char) : Bool :=
  if ¬ pattern.contains '*' then pattern == text
  else
    match splitStar pattern with
    | [] => false
    | first :: parts =>
      if ¬ first.isPrefixOf text then false
      else matchParts (pattern.getLast? == some '*') (text.drop first.length) parts

/-- `wildcard_match` on Rust strings. -/
def wildcard_matchS (pattern text : String) : Bool :=
  wildcard_match pattern.toList text.toList

/-- Whether a component-list pattern contains a glob character.  Equal to
`has_glob` of the joined string, because `/` is not a glob character. -/
def hasGlobP (pattern : FPath) : Bool :=
  pattern.any (fun comp => has_glob comp)

/-- Direct children of the directory `p`: the entries of `fs` one component
below `p`, in filesystem enumeration order (`fs::read_dir`). -/
def fsChildren (fs : FS) (p : FPath) : List (FPath × NodeKind) :=
  fs.filter (fun e => e.1.length = p.length + 1 && p.isPrefixOf e.1)

/-- `fs::read_dir(dir)`: the file names of the directory's immediate
entries, or `none` when `dir` cannot be read. -/
def readDir (fs : FS) (dir : FPath) : Option (List String) :=
  match fsFind fs dir with
  | some NodeKind.dir => some ((fsChildren fs dir).map (fun e => e.1.getLastD ""))
  | _ => none

/-- `expand_sources` (lines 85-101): a pattern without glob characters is
returned literally; otherwise the parent directory is listed and the final
component is matched with `wildcard_match` against each entry name. -/
def expand_sources (fs : FS) (pattern : FPath) : Except Err (List FPath) :=
  if ¬ hasGlobP pattern then Except.ok [pattern]
  else
    let dir := pattern.dropLast
    let pat := pattern.getLastD ""
    match readDir fs dir with
    | none => Except.error Err.notFound
    | some names =>
      Except.ok ((names.filter (fun n => wildcard_matchS pat n)).map (fun n => dir ++ [n]))

/-- Numbered backup candidate `original + ".~" + N + "~"` of `create_backup`
(line 46). -/
def backupNumCand (dest : String) (n : Nat) : String :=
  dest ++ ".~" ++ toString n ++ "~"

/-- The `loop` of `create_backup` (lines 44-51): probe the numbered
candidates from `counter` upward and return the first one that does not
exist.  `fuel` makes the unbounded Rust loop total; real executions never
exhaust it because the filesystem is finite. -/
def backupProbe (ex : String → Bool) (dest : String) : Nat → Nat → Option String
  | _, 0 => none
  | counter, fuel + 1 =>
    let cand := backupNumCand dest counter
    if ex cand then backupProbe ex dest (counter + 1) fuel else some cand

/-- Name selection of `create_backup` (lines 38-52): empty suffix is
replaced by `~`; the first candidate is `dest + suffix`; if it exists, the
numbered candidates are probed from 1 upward.  `ex` is `Path::exists()` on
the current filesystem.  The caller performs the `fs::rename` (line 54). -/
def create_backup (ex : String → Bool) (dest suffix : String) (fuel : Nat) : Option String :=
  let suffix := if suffix = "" then "~" else suffix
  let cand0 := dest ++ suffix
  if ex cand0 then backupProbe ex dest 1 fuel else some cand0

/-- Append a suffix string to the final component of a path: the effect of
Rust's `format!("{}{}", dest.to_string_lossy(), suffix)` on a component
list, for suffixes not containing `/` (the engine's suffixes are `~`-style
strings). -/
def appendToLast (p : FPath) (s : String) : FPath :=
  p.dropLast ++ [p.getLastD "" ++ s]

/-- Numbered backup candidate at path level. -/
def backupNumCandP (dest : FPath) (n : Nat) : FPath :=
  appendToLast dest (".~" ++ toString n ++ "~")

/-- The probe loop of `create_backup` at path level. -/
def backupProbeP (ex : FPath → Bool) (dest : FPath) : Nat → Nat → Option FPath
  | _, 0 => none
  | counter, fuel + 1 =>
    let cand := backupNumCandP dest counter
    if ex cand then backupProbeP ex dest (counter + 1) fuel else some cand

/-- Name selection of `create_backup` at path level; mirrors `create_backup`
on the stringified path (string concatenation on the final component). -/
def createBackupName (ex : FPath → Bool) (dest : FPath) (suffix : String) (fuel : Nat) : Option FPath :=
  let suffix := if suffix = "" then "~" else suffix
  let cand0 := appendToLast dest suffix
  if ex cand0 then backupProbeP ex dest 1 fuel else some cand0

/-- `create_backup` as invoked by `link_files` (line 203): choose the backup
name against the current filesystem, then `fs::rename` the existing
destination to it.  Fuel `fs.length + 1` is an over-approximation artifact;
exhaustion yields `Err.other`, which no real execution reaches. -/
def createBackupFS (fs : FS) (dest : FPath) (suffix : String) : Except Err FS :=
  match createBackupName (fun p => fsExists fs p) dest suffix (fs.length + 1) with
  | none => Except.error Err.other
  | some b => Except.ok (fsRename fs dest b)

/-- Longest component count of any existing path; a depth bound for the
walk. -/
def fsMaxLen (fs : FS) : Nat :=
  fs.foldr (fun e m => max e.1.length m) 0

/-- Depth-first pre-order traversal from `p` (the `WalkDir` iterator): the
node itself first, then recursively the subtrees of its children in
filesystem enumeration order.  `fuel` bounds the recursion depth; `walkDir`
supplies enough for every path of the filesystem. -/
def walk (fs : FS) : Nat → FPath → List (FPath × NodeKind)
  | 0, _ => []
  | fuel + 1, p =>
    match fsFind fs p with
    | none => []
    | some k =>
      (p, k) ::
        (if k = NodeKind.dir then
          (fsChildren fs p).flatMap (fun c => walk fs fuel c.1)
        else [])

/-- `WalkDir::new(root)` with sufficient fuel for the whole filesystem. -/
def walkDir (fs : FS) (root : FPath) : List (FPath × NodeKind) :=
  walk fs (fsMaxLen fs + 1) root

/-- `path.strip_prefix(base)` (lines 182-184): the remainder of `path` after
the prefix `base`, `none` when `base` is not a prefix. -/
def stripPre (base path : FPath) : Option FPath :=
  if base.isPrefixOf path then some (path.drop base.length) else none

/-- All nonempty prefixes of `p`, shortest first. -/
def prefixesOf (p : FPath) : List FPath :=
  (List.range p.length).map (fun i => p.take (i + 1))

/-- Create the given directories in order, reusing existing ones; a prefix
existing as a non-directory is an error. -/
def mkDirs (fs : FS) : List FPath → Except Err FS
  | [] => Except.ok fs
  | p :: ps =>
    match fsFind fs p with
    | some NodeKind.dir => mkDirs fs ps
    | some _ => Except.error Err.other
    | none => mkDirs ((p, NodeKind.dir) :: fs) ps

/-- `fs::create_dir_all(p)` (lines 191-193): create every missing prefix of
`p` as a directory.  `create_dir_all` of the empty path is a no-op, matching
`std`'s special case for `Path::new("")`. -/
def createDirAll (fs : FS) (p : FPath) : Except Err FS :=
  mkDirs fs (prefixesOf p)

/-- `make_link` (lines 114-128).  A trailing-separator destination (final
empty component, produced by `join("")`) is rejected by `link(2)` and
`symlink(2)` alike: `ENOENT` when the underlying path does not exist,
`EEXIST` when it does (kernel-verified for files and directories).
Otherwise creating either link kind fails when the destination already
exists (`EEXIST`).  In symbolic mode the stored target string (absolute
source, or the `make_relative` path when `opts.relative`) is never re-read
by the engine, so the model records only the new node; its kind is the
source's kind, mirroring that path lookups follow the link.
`make_relative`'s canonicalization cannot fail here because the source was
just walked and the destination's parent was just created. -/
def make_link (fs : FS) (sourcePath : FPath) (kind : NodeKind) (destPath : FPath)
    (opts : LinkOptions) : Except Err FS :=
  if destPath.getLastD "x" = "" then
    match fsFind fs destPath.dropLast with
    | none => Except.error Err.notFound
    | some _ => Except.error Err.alreadyExists
  else if opts.symbolic then
    if fsExists fs destPath then Except.error Err.alreadyExists
    else Except.ok ((destPath, kind) :: fs)
  else
    if fsExists fs destPath then Except.error Err.alreadyExists
    else Except.ok ((destPath, NodeKind.file) :: fs)

/-- The existing-destination policy (lines 201-212): when the destination
exists, `backup` renames it away (taking priority over `force`), else
`force` deletes it (`fs::remove_file`, which fails on a directory), else the
call fails with `AlreadyExists`. -/
def handleExisting (opts : LinkOptions) (fs : FS) (destFile : FPath) : Except Err FS :=
  if fsExists fs destFile then
    if opts.backup then createBackupFS fs destFile opts.backup_suffix
    else if opts.force then
      match fsFind fs destFile with
      | some NodeKind.file => Except.ok (fsRemove fs destFile)
      | _ => Except.error Err.other
    else Except.error Err.alreadyExists
  else Except.ok fs

/-- Destination-path resolution (lines 186-190): an empty relative path with
an existing destination directory lands at `dest / source_file_name`;
otherwise at `dest_path.join(rel_path)`.  Joining an *empty* relative path
appends a trailing separator (`"out".join("") = "out/"`), recorded here as a
final empty component; such a destination is rejected by the link syscalls
in `make_link`. -/
def destFileOf (destPath : FPath) (destIsDir : Bool) (path rel : FPath) : FPath :=
  if rel = [] && destIsDir then destPath ++ [path.getLastD ""]
  else if rel = [] then destPath ++ [""]
  else destPath ++ rel

/-- `Path::parent` of a computed destination (line 191): path components
ignore a trailing separator, so the parent of `out/` is the empty path, one
component above `out`; for an ordinary path it is `dropLast`. -/
def parentOf (p : FPath) : FPath :=
  if p.getLastD "x" = "" then p.dropLast.dropLast else p.dropLast

/-- The body of the traversal loop of `link_files` for one entry (lines
166-215), after the first-entry suppression: skip non-regular files in
hard-link mode and directories when `symlink_files_only`; compute the
relative path against `base` and the destination path; create the
destination's parent directories; symbolically link directories without an
existing-destination guard; otherwise apply the backup/force policy and
link.  State is the filesystem plus the accumulated `linked` list. -/
def processEntry (opts : LinkOptions) (destPath : FPath) (destIsDir : Bool) (base : FPath)
    (st : FS × List FPath) (e : FPath × NodeKind) : Except Err (FS × List FPath) :=
  let fs := st.1
  let acc := st.2
  let path := e.1
  let kind := e.2
  if ¬ kind = NodeKind.file && ¬ opts.symbolic then Except.ok st
  else if kind = NodeKind.dir && opts.symbolic && opts.symlink_files_only then Except.ok st
  else
    match stripPre base path with
    | none => Except.error Err.other
    | some rel =>
      let destFile := destFileOf destPath destIsDir path rel
      match createDirAll fs (parentOf destFile) with
      | Except.error err => Except.error err
      | Except.ok fs1 =>
        if kind = NodeKind.dir && opts.symbolic then
          match make_link fs1 path kind destFile opts with
          | Except.error err => Except.error err
          | Except.ok fs2 => Except.ok (fs2, acc ++ [rel])
        else
          match handleExisting opts fs1 destFile with
          | Except.error err => Except.error err
          | Except.ok fs2 =>
            match make_link fs2 path kind destFile opts with
            | Except.error err => Except.error err
            | Except.ok fs3 => Except.ok (fs3, acc ++ [rel])

/-- The traversal base for one matched root (lines 159-163): the root's
parent when the destination argument is a relative path (`include_root`)
that currently exists as a directory, the root itself otherwise. -/
def chooseBase (destIsRel destIsDir : Bool) (root : FPath) : FPath :=
  if destIsRel && destIsDir then root.dropLast else root

/-- Processing of one matched source root (lines 158-216): walk it, suppress
the first yielded entry when it is a directory, and fold the entry loop over
the rest.  A missing root surfaces as the walker's `NotFound` error. -/
def processRoot (opts : LinkOptions) (destPath : FPath) (destIsDir destIsRel : Bool)
    (st : FS × List FPath) (root : FPath) : Except Err (FS × List FPath) :=
  if fsExists st.1 root then
    let base := chooseBase destIsRel destIsDir root
    let es := walkDir st.1 root
    let es :=
      match es with
      | (p, NodeKind.dir) :: rest => rest
      | other => other
    es.foldlM (processEntry opts destPath destIsDir base) st
  else Except.error Err.notFound

/-- `link_files` (lines 144-220).  `destIsRel` is `Path::new(dest).is_relative()`
(line 153); `dest_is_dir` is computed once, before any filesystem mutation
(line 152).  Returns the relative paths linked, in traversal order, or the
first error. -/
def link_files (fs : FS) (source : FPath) (dest : FPath) (destIsRel : Bool)
    (opts? : Option LinkOptions) : Except Err (List FPath) :=
  let opts := opts?.getD LinkOptions.default
  let destIsDir := fsIsDir fs dest
  match expand_sources fs source with
  | Except.error err => Except.error err
  | Except.ok sources =>
    match sources.foldlM (processRoot opts dest destIsDir destIsRel) (fs, []) with
    | Except.error err => Except.error err
    | Except.ok st => Except.ok st.2

/-- Spec-side matcher, claim C4, written from the claim's words: the
subsequent *non-empty* literal segments (splitting the pattern on `*`) must
each be found in order at their first occurrence within the remaining
unconsumed tail; returns the final unconsumed tail, or `none` when a segment
is absent. -/
def claimConsume : List Char → List (List Char) → Option (List Char)
  | rem, [] => some rem
  | rem, seg :: segs =>
    match findSub seg rem with
    | some i => claimConsume (rem.drop (i + seg.length)) segs
    | none => none

/-- Spec-side matcher, claim C4: no `*` requires exact equality; otherwise
the name starts with the text before the first `*`, the subsequent non-empty
segments are consumed in order at their first occurrences, and at the end
the pattern ends with `*` or the tail is empty. -/
def claimMatch (pattern text : List Char) : Bool :=
  if ¬ pattern.contains '*' then text == pattern
  else
    let first := (splitStar pattern).headD []
    first.isPrefixOf text &&
      match claimConsume (text.drop first.length)
          (((splitStar pattern).tail).filter (fun s => ¬ s = [])) with
      | none => false
      | some rem => (pattern.getLast? == some '*') || rem == []

/-- Spec-side traversal base, claim C1, written from the claim's words: the
root's parent exactly when the overall source pattern was a wildcard
expansion and the destination exists as a directory; the root itself in
every other case. -/
def specC1Base (patternHadGlob destIsDir : Bool) (root : FPath) : FPath :=
  if patternHadGlob && destIsDir then root.dropLast else root

/-- Whether the loop body of `link_files` skips this traversal entry
entirely (lines 174-180): non-regular files in hard-link mode, directories
in symbolic mode with `symlink_files_only`.  The decision depends only on
the entry's kind and the options, never on the filesystem state. -/
def entrySkipped (opts : LinkOptions) (k : NodeKind) : Bool :=
  (¬ k = NodeKind.file && ¬ opts.symbolic) ||
    (k = NodeKind.dir && opts.symbolic && opts.symlink_files_only)

/-- Relative path contributed to the `linked` result by one traversal entry,
`none` when the entry is skipped.  On every successful run the accumulated
result is exactly the `filterMap` of this function over the processed
entries. -/
def entryContribution (opts : LinkOptions) (base : FPath) (e : FPath × NodeKind) : Option FPath :=
  if entrySkipped opts e.2 then none else stripPre base e.1

/-- Well-formed filesystem: existing paths are distinct and nonempty, and
every proper nonempty prefix of an existing path exists as a directory
(quantified over the finite `prefixesOf` list so that the predicate is
decidable on concrete filesystems). -/
def WF (fs : FS) : Prop :=
  (fs.map (fun e => e.1)).Nodup ∧
  (∀ e ∈ fs, e.1 ≠ []) ∧
  (∀ e ∈ fs, ∀ r ∈ prefixesOf e.1, r ≠ e.1 → (r, NodeKind.dir) ∈ fs)

/-! Lemmas. -/

theorem splitStar_ne_nil (l : List Char) : splitStar l ≠ [] := by
  cases l with
  | nil => simp [splitStar]
  | cons c cs =>
    simp only [splitStar]
    by_cases h : c = '*'
    · simp [h]
    · simp only [if_neg h]
      cases splitStar cs <;> simp

theorem backupProbe_spec (ex : String → Bool) (dest : String) :
    ∀ (fuel c n : Nat), c ≤ n → n < c + fuel →
      (∀ k, c ≤ k → k < n → ex (backupNumCand dest k) = true) →
      ex (backupNumCand dest n) = false →
      backupProbe ex dest c fuel = some (backupNumCand dest n) := by
  intro fuel
  induction fuel with
  | zero => intro c n hcn hlt _ _; omega
  | succ fuel ih =>
    intro c n hcn hlt hall hfree
    simp only [backupProbe]
    by_cases hc : ex (backupNumCand dest c) = true
    · have hne : c ≠ n := by
        intro he
        rw [he, hfree] at hc
        cases hc
      rw [if_pos hc]
      exact ih (c + 1) n (by omega) (by omega)
        (fun k hk1 hk2 => hall k (by omega) hk2) hfree
    · have hn : n = c := by
        by_contra hne
        exact hc (hall c le_rfl (by omega))
      rw [if_neg hc, hn]

theorem matchParts_eq_claimConsume (endsStar : Bool) :
    ∀ (parts : List (List Char)) (rem : List Char),
      matchParts endsStar rem parts =
        (match claimConsume rem (parts.filter (fun s => decide (¬ s = []))) with
         | none => false
         | some r => endsStar || r == []) := by
  intro parts
  induction parts with
  | nil => intro rem; rfl
  | cons p ps ih =>
    intro rem
    by_cases hp : p = []
    · simp only [matchParts, if_pos hp, List.filter_cons, hp]
      simp [ih]
    · simp only [matchParts, if_neg hp, List.filter_cons]
      have : decide (¬ p = []) = true := by simp [hp]
      rw [this]
      simp only [claimConsume]
      cases h : findSub p rem with
      | none => simp [h]
      | some i => simp [h, ih]

/-- C4: for every pattern and candidate name, the matcher agrees exactly
with the spec's rule — no `*` requires equality; otherwise the name starts
with the text before the first `*`, each subsequent non-empty segment is
found in order at its first occurrence in the unconsumed tail, and finally
the pattern ends with `*` or the tail is empty — and glob mode is triggered
precisely by the characters `*`, `?`, `[` (of which only `*` is given
meaning by the matcher). -/
theorem claim_C4 :
    (∀ pattern text : List Char, wildcard_match pattern text = claimMatch pattern text) ∧
    (∀ pattern : String,
      has_glob pattern = true ↔ ∃ c ∈ pattern.toList, c = '*' ∨ c = '?' ∨ c = '[') := by
  constructor
  · intro pattern text
    unfold wildcard_match claimMatch
    by_cases hc : pattern.contains '*' = true
    · simp only [hc, not_true, if_false]
      cases hsp : splitStar pattern with
      | nil => exact absurd hsp (splitStar_ne_nil pattern)
      | cons first parts =>
        simp only [hsp, List.headD, List.tail_cons]
        by_cases hpre : first.isPrefixOf text = true
        · simp [hpre, matchParts_eq_claimConsume]
        · simp [hpre]
    · rw [if_pos hc, if_pos hc]
      by_cases he : pattern = text
      · simp [he]
      · rw [beq_eq_false_iff_ne.mpr he, beq_eq_false_iff_ne.mpr (Ne.symm he)]
  · intro pattern
    simp [has_glob, List.any_eq_true, isGlobChar, or_assoc]

/-- C5: a pattern containing none of `*`, `?`, `[` expands to exactly the
one-element list holding the pattern itself, for every filesystem — in
particular existence of the path is not consulted. -/
theorem claim_C5 (fs : FS) (pattern : FPath) (h : hasGlobP pattern = false) :
    expand_sources fs pattern = Except.ok [pattern] := by
  simp [expand_sources, h]

/-- C5 witness: a concrete literal pattern expands to itself on an empty
filesystem. -/
theorem claim_C5_witness :
    hasGlobP ["a", "b.txt"] = false ∧
      expand_sources [] ["a", "b.txt"] = Except.ok [["a", "b.txt"]] :=
  ⟨by decide, claim_C5 [] ["a", "b.txt"] (by decide)⟩

/-- C10: `link_files` with no options behaves identically to `link_files`
with the default options, and the defaults are hard links, absolute,
no force, no backup, suffix `~`, directories symlinked too. -/
theorem claim_C10 (fs : FS) (source dest : FPath) (destIsRel : Bool) :
    link_files fs source dest destIsRel none =
      link_files fs source dest destIsRel (some LinkOptions.default) ∧
    LinkOptions.default =
      { symbolic := false, relative := false, force := false, backup := false,
        backup_suffix := "~", symlink_files_only := false } :=
  ⟨rfl, rfl⟩

/-- C3: backup name selection — an empty suffix behaves as `~`; the first
candidate `original + suffix` is returned when it does not exist; otherwise
the numbered candidates `original + ".~" + N + "~"` are probed for
N = 1, 2, 3, … and the first free one is returned, for every N (the fuel
argument only needs to cover the probed range, mirroring that the Rust loop
has no retry cap); the name found is the one the existing file is renamed
to. -/
theorem claim_C3 :
    (∀ (ex : String → Bool) (dest : String) (fuel : Nat),
      create_backup ex dest "" fuel = create_backup ex dest "~" fuel) ∧
    (∀ (ex : String → Bool) (dest suffix : String) (fuel : Nat), suffix ≠ "" →
      ex (dest ++ suffix) = false →
      create_backup ex dest suffix fuel = some (dest ++ suffix)) ∧
    (∀ (ex : String → Bool) (dest suffix : String) (fuel n : Nat), suffix ≠ "" →
      ex (dest ++ suffix) = true → 1 ≤ n → n ≤ fuel →
      (∀ k, 1 ≤ k → k < n → ex (backupNumCand dest k) = true) →
      ex (backupNumCand dest n) = false →
      create_backup ex dest suffix fuel = some (backupNumCand dest n)) ∧
    (∀ (fs : FS) (dest : FPath) (suffix : String) (b : FPath),
      createBackupName (fun p => fsExists fs p) dest suffix (fs.length + 1) = some b →
      createBackupFS fs dest suffix = Except.ok (fsRename fs dest b)) := by
  refine ⟨fun ex dest fuel => rfl, fun ex dest suffix fuel hs hfree => ?_,
    fun ex dest suffix fuel n hs hc0 h1 hf hall hfree => ?_, fun fs dest suffix b hb => ?_⟩
  · simp [create_backup, if_neg hs, hfree]
  · simp only [create_backup, if_neg hs, hc0, if_true]
    exact backupProbe_spec ex dest fuel 1 n h1 (by omega) hall hfree
  · simp [createBackupFS, hb]

/-- C3 witness: with `f~` and `f.~1~` occupied, the backup name chosen for
`f` is `f.~2~`, both for suffix `~` and for the empty suffix. -/
theorem claim_C3_witness :
    create_backup (fun s => s ∈ (["f~", "f.~1~"] : List String)) "f" "" 5 =
      some (backupNumCand "f" 2) := by
  rw [claim_C3.1 (fun s => s ∈ (["f~", "f.~1~"] : List String)) "f" 5]
  exact claim_C3.2.2.1 (fun s => s ∈ (["f~", "f.~1~"] : List String)) "f" "~" 5 2
    (by decide) (by decide) (by decide) (by decide)
    (fun k hk1 hk2 => by
      have : k = 1 := by omega
      subst this
      decide)
    (by decide)

theorem isPrefixOf_true_iff {α : Type} [DecidableEq α] (l₁ l₂ : List α) :
    l₁.isPrefixOf l₂ = true ↔ l₁ <+: l₂ :=
  List.isPrefixOf_iff_prefix

theorem take_isPre {α : Type} (l : List α) (n : Nat) : l.take n <+: l :=
  ⟨l.drop n, l.take_append_drop n⟩

theorem fsFind_eq_of_mem {fs : FS} (hnd : (fs.map (fun e => e.1)).Nodup)
    {q : FPath} {k : NodeKind} (hm : (q, k) ∈ fs) : fsFind fs q = some k := by
  induction fs with
  | nil => cases hm
  | cons e rest ih =>
    simp only [List.map_cons, List.nodup_cons] at hnd
    rcases List.mem_cons.mp hm with hm | hm
    · rw [← hm]
      simp [fsFind, List.find?]
    · have hne : ¬ e.1 = q := by
        intro he
        exact hnd.1 (he ▸ List.mem_map_of_mem (fun x => x.1) hm)
      simp only [fsFind, List.find?, decide_eq_false hne]
      exact ih hnd.2 hm

theorem mem_of_fsFind {fs : FS} {q : FPath} {k : NodeKind}
    (h : fsFind fs q = some k) : (q, k) ∈ fs := by
  simp only [fsFind, Option.map_eq_some'] at h
  obtain ⟨e, he, hk⟩ := h
  have hmem := List.mem_of_find?_eq_some he
  have hq := List.find?_some he
  simp only [decide_eq_true_eq] at hq
  have : e = (q, k) := by
    cases e
    simp_all
  exact this ▸ hmem

theorem fsExists_true_of_mem {fs : FS} (hnd : (fs.map (fun e => e.1)).Nodup)
    {q : FPath} {k : NodeKind} (hm : (q, k) ∈ fs) : fsExists fs q = true := by
  simp [fsExists, fsFind_eq_of_mem hnd hm]

theorem mem_fsChildren_iff {fs : FS} {p : FPath} {e : FPath × NodeKind} :
    e ∈ fsChildren fs p ↔ e ∈ fs ∧ e.1.length = p.length + 1 ∧ p <+: e.1 := by
  simp [fsChildren, List.mem_filter, isPrefixOf_true_iff, and_assoc]

theorem fsMaxLen_bound {fs : FS} {e : FPath × NodeKind} (hm : e ∈ fs) :
    e.1.length ≤ fsMaxLen fs := by
  induction fs with
  | nil => cases hm
  | cons f rest ih =>
    rcases List.mem_cons.mp hm with hm | hm
    · simp only [fsMaxLen, List.foldr, hm]
      omega
    · have := ih hm
      simp only [fsMaxLen, List.foldr] at this ⊢
      omega

theorem walk_sound (fs : FS) :
    ∀ (fuel : Nat) (p q : FPath) (k : NodeKind), (q, k) ∈ walk fs fuel p →
      (q, k) ∈ fs ∧ p <+: q ∧ (q = p ∨ p.length < q.length) := by
  intro fuel
  induction fuel with
  | zero => intro p q k h; cases h
  | succ fuel ih =>
    intro p q k h
    simp only [walk] at h
    cases hf : fsFind fs p with
    | none => rw [hf] at h; cases h
    | some kp =>
      rw [hf] at h
      rcases List.mem_cons.mp h with h | h
      · have hq : q = p ∧ k = kp := by
          constructor
          · exact congrArg Prod.fst h
          · exact congrArg Prod.snd h
        obtain ⟨hq1, hq2⟩ := hq
        subst hq1
        subst hq2
        exact ⟨mem_of_fsFind hf, List.prefix_refl q, Or.inl rfl⟩
      · by_cases hd : kp = NodeKind.dir
        · rw [if_pos hd] at h
          obtain ⟨c, hc, hw⟩ := List.mem_flatMap.mp h
          obtain ⟨hcfs, hclen, hcpre⟩ := mem_fsChildren_iff.mp hc
          obtain ⟨hqfs, hpre, hlen⟩ := ih c.1 q k hw
          refine ⟨hqfs, hcpre.trans hpre, Or.inr ?_⟩
          have := hpre.length_le
          rcases hlen with hlen | hlen
          · rw [hlen]; omega
          · omega
        · rw [if_neg hd] at h
          cases h

theorem dropLast_isPre {α : Type} (l : List α) : l.dropLast <+: l := by
  refine ⟨l.drop (l.length - 1), ?_⟩
  simp [List.dropLast_eq_take, List.take_append_drop]

theorem proper_pre_length {α : Type} {p q : List α} (h : p <+: q) (hn : p ≠ q) :
    p.length < q.length := by
  have h1 := h.length_le
  rcases Nat.lt_or_ge p.length q.length with h2 | h2
  · exact h2
  · exact absurd (h.eq_of_length (by omega)) hn

theorem mem_prefixesOf_iff {p r : FPath} :
    r ∈ prefixesOf p ↔ r ≠ [] ∧ r <+: p := by
  simp only [prefixesOf, List.mem_map, List.mem_range]
  constructor
  · rintro ⟨i, hi, rfl⟩
    refine ⟨?_, take_isPre p (i + 1)⟩
    intro h
    have hlen := congrArg List.length h
    rw [List.length_take] at hlen
    simp only [List.length_nil] at hlen
    omega
  · rintro ⟨hne, hpre⟩
    have hle := hpre.length_le
    have hpos : 0 < r.length := List.length_pos.mpr hne
    refine ⟨r.length - 1, by omega, ?_⟩
    have : r.length - 1 + 1 = r.length := by omega
    rw [this, ← List.prefix_iff_eq_take.mp hpre]

theorem wf_closure {fs : FS} (hwf : WF fs) {q : FPath} {k : NodeKind}
    (hq : (q, k) ∈ fs) {r : FPath} (hpre : r <+: q) (hrne : r ≠ [])
    (hrq : r ≠ q) : (r, NodeKind.dir) ∈ fs :=
  hwf.2.2 (q, k) hq r (mem_prefixesOf_iff.mpr ⟨hrne, hpre⟩) hrq

theorem walk_complete {fs : FS} (hwf : WF fs) :
    ∀ (fuel : Nat) (p : FPath) (kp : NodeKind) (q : FPath) (k : NodeKind),
      fsFind fs p = some kp → p ≠ [] → (q, k) ∈ fs → p <+: q →
      q.length - p.length < fuel → (q, k) ∈ walk fs fuel p := by
  have hnd := hwf.1
  intro fuel
  induction fuel with
  | zero => intro p kp q k _ _ _ _ h; omega
  | succ fuel ih =>
    intro p kp q k hfp hp hq hpre hfuel
    simp only [walk, hfp]
    by_cases hqp : q = p
    · subst hqp
      have : some k = some kp := by rw [← fsFind_eq_of_mem hnd hq, hfp]
      have hk : k = kp := by injection this
      subst hk
      exact List.mem_cons_self _ _
    · have hlt : p.length < q.length := proper_pre_length hpre (fun h => hqp h.symm)
      have hpd : (p, NodeKind.dir) ∈ fs := wf_closure hwf hq hpre hp (fun h => hqp h.symm)
      have hkp : kp = NodeKind.dir := by
        have h2 := fsFind_eq_of_mem hnd hpd
        rw [hfp] at h2
        exact Option.some.inj h2
      rw [if_pos hkp]
      apply List.mem_cons_of_mem
      have hql : p.length + 1 ≤ q.length := hlt
      have hclen : (q.take (p.length + 1)).length = p.length + 1 := by
        rw [List.length_take]
        omega
      have hcq : q.take (p.length + 1) <+: q := take_isPre q _
      have hpc : p <+: q.take (p.length + 1) := by
        rw [List.prefix_iff_eq_take] at hpre ⊢
        rw [List.take_take]
        have hmin : min p.length (p.length + 1) = p.length := by omega
        rw [hmin]
        exact hpre
      have hcne : q.take (p.length + 1) ≠ [] := by
        intro h
        rw [h] at hclen
        simp at hclen
      have hkc : ∃ kc, (q.take (p.length + 1), kc) ∈ fs := by
        by_cases hcq2 : q.take (p.length + 1) = q
        · exact ⟨k, by rw [hcq2]; exact hq⟩
        · exact ⟨NodeKind.dir, wf_closure hwf hq hcq hcne hcq2⟩
      obtain ⟨kc, hkcm⟩ := hkc
      apply List.mem_flatMap.mpr
      refine ⟨(q.take (p.length + 1), kc), mem_fsChildren_iff.mpr ⟨hkcm, hclen, hpc⟩, ?_⟩
      apply ih _ kc q k (fsFind_eq_of_mem hnd hkcm) hcne hq hcq
      simp only [hclen]
      omega

theorem walkDir_mem_iff {fs : FS} (hwf : WF fs) {root : FPath} {kr : NodeKind}
    (hr : (root, kr) ∈ fs) (hrne : root ≠ []) {q : FPath} {k : NodeKind} :
    (q, k) ∈ walkDir fs root ↔ (q, k) ∈ fs ∧ root <+: q := by
  constructor
  · intro h
    have := walk_sound fs _ root q k h
    exact ⟨this.1, this.2.1⟩
  · intro h
    apply walk_complete hwf _ root kr q k (fsFind_eq_of_mem hwf.1 hr) hrne h.1 h.2
    have := fsMaxLen_bound h.1
    simp only at this
    omega

theorem walkDir_eq_cons {fs : FS} {root : FPath} {kr : NodeKind}
    (h : fsFind fs root = some kr) :
    walkDir fs root = (root, kr) ::
      (if kr = NodeKind.dir then
        (fsChildren fs root).flatMap (fun c => walk fs (fsMaxLen fs) c.1)
      else []) := by
  simp [walkDir, walk, h]

theorem walkDir_file {fs : FS} {root : FPath}
    (h : fsFind fs root = some NodeKind.file) :
    walkDir fs root = [(root, NodeKind.file)] := by
  simp [walkDir, walk, h]

theorem walkDir_tail_sound {fs : FS} {root : FPath}
    (hd : fsFind fs root = some NodeKind.dir) {q : FPath} {k : NodeKind} :
    (q, k) ∈ (walkDir fs root).tail →
      (q, k) ∈ fs ∧ root <+: q ∧ root.length < q.length := by
  rw [walkDir_eq_cons hd]
  simp only [List.tail_cons, if_pos rfl]
  intro h
  obtain ⟨c, hc, hw⟩ := List.mem_flatMap.mp h
  obtain ⟨hcfs, hclen, hcpre⟩ := mem_fsChildren_iff.mp hc
  obtain ⟨hqfs, hpre, hlen⟩ := walk_sound fs _ c.1 q k hw
  refine ⟨hqfs, hcpre.trans hpre, ?_⟩
  have := hpre.length_le
  rcases hlen with hlen | hlen
  · rw [hlen]; omega
  · omega

theorem walkDir_tail_mem_iff {fs : FS} (hwf : WF fs) {root : FPath}
    (hr : (root, NodeKind.dir) ∈ fs) (hrne : root ≠ []) {q : FPath} {k : NodeKind} :
    (q, k) ∈ (walkDir fs root).tail ↔ (q, k) ∈ fs ∧ root <+: q ∧ q ≠ root := by
  have hfind := fsFind_eq_of_mem hwf.1 hr
  constructor
  · intro h
    obtain ⟨h1, h2, h3⟩ := walkDir_tail_sound hfind h
    refine ⟨h1, h2, ?_⟩
    intro he
    rw [he] at h3
    omega
  · intro ⟨h1, h2, h3⟩
    have := (walkDir_mem_iff hwf hr hrne).mpr ⟨h1, h2⟩
    rw [walkDir_eq_cons hfind] at this ⊢
    simp only [List.tail_cons]
    rcases List.mem_cons.mp this with h | h
    · exact absurd (congrArg Prod.fst h) h3
    · exact h

theorem foldlM_except_single {α β ε : Type} (f : β → α → Except ε β) (st : β) (a : α) :
    List.foldlM f st [a] = f st a := by
  simp only [List.foldlM]
  cases f st a <;> rfl

theorem foldlM_except_error {α β ε : Type} (f : β → α → Except ε β) :
    ∀ (l₁ : List α) (st st' : β) (a : α) (l₂ : List α) (err : ε),
      List.foldlM f st l₁ = Except.ok st' → f st' a = Except.error err →
      List.foldlM f st (l₁ ++ a :: l₂) = Except.error err := by
  intro l₁
  induction l₁ with
  | nil =>
    intro st st' a l₂ err h1 h2
    have hst : st = st' := by
      simp only [List.foldlM] at h1
      exact Except.ok.inj h1
    subst hst
    simp only [List.nil_append, List.foldlM, h2]
    rfl
  | cons b l ih =>
    intro st st' a l₂ err h1 h2
    simp only [List.cons_append, List.foldlM] at h1 ⊢
    cases hb : f st b with
    | error e =>
      rw [hb] at h1
      cases h1
    | ok s =>
      rw [hb] at h1
      exact ih s st' a l₂ err h1 h2

theorem processEntry_ok_acc {opts : LinkOptions} {destPath : FPath} {destIsDir : Bool}
    {base : FPath} {st st' : FS × List FPath} {e : FPath × NodeKind}
    (h : processEntry opts destPath destIsDir base st e = Except.ok st') :
    st'.2 = st.2 ++ (entryContribution opts base e).toList := by
  simp only [processEntry] at h
  split at h
  · rename_i hskip
    have hc : entrySkipped opts e.2 = true := by
      simp only [entrySkipped, Bool.or_eq_true]
      exact Or.inl hskip
    rw [Except.ok.inj h]
    simp [entryContribution, hc]
  · split at h
    · rename_i hns hskip
      have hc : entrySkipped opts e.2 = true := by
        simp only [entrySkipped, Bool.or_eq_true]
        exact Or.inr hskip
      rw [Except.ok.inj h]
      simp [entryContribution, hc]
    · rename_i hns hnd2
      have hc : entrySkipped opts e.2 = false := by
        simp only [entrySkipped, Bool.or_eq_false_iff]
        constructor
        · exact Bool.not_eq_true _ ▸ (by simpa using hns)
        · simpa using hnd2
      split at h
      · cases h
      · rename_i rel hrel
        split at h
        · cases h
        · split at h
          · split at h
            · cases h
            · rw [← Except.ok.inj h]
              simp [entryContribution, hc, hrel]
          · split at h
            · cases h
            · split at h
              · cases h
              · rw [← Except.ok.inj h]
                simp [entryContribution, hc, hrel]

theorem foldlM_processEntry_acc {opts : LinkOptions} {destPath : FPath} {destIsDir : Bool}
    {base : FPath} :
    ∀ (es : List (FPath × NodeKind)) (st st' : FS × List FPath),
      es.foldlM (processEntry opts destPath destIsDir base) st = Except.ok st' →
      st'.2 = st.2 ++ es.filterMap (entryContribution opts base) := by
  intro es
  induction es with
  | nil =>
    intro st st' h
    have hst : st = st' := Except.ok.inj h
    rw [← hst]
    simp
  | cons e es ih =>
    intro st st' h
    simp only [List.foldlM] at h
    cases hpe : processEntry opts destPath destIsDir base st e with
    | error err =>
      rw [hpe] at h
      cases h
    | ok st₁ =>
      rw [hpe] at h
      have h1 := ih st₁ st' h
      have h2 := processEntry_ok_acc hpe
      rw [h1, h2, List.filterMap_cons]
      cases hc : entryContribution opts base e <;> simp [hc]

theorem contribution_hard {opts : LinkOptions} (hsym : opts.symbolic = false)
    {base q : FPath} (k : NodeKind) (hpre : base <+: q) :
    entryContribution opts base (q, k) =
      if k = NodeKind.file then some (q.drop base.length) else none := by
  unfold entryContribution entrySkipped stripPre
  cases k <;> simp [hsym, (isPrefixOf_true_iff base q).mpr hpre]

theorem contribution_symbolic {opts : LinkOptions} (hsym : opts.symbolic = true)
    (hfo : opts.symlink_files_only = false) {base q : FPath} (k : NodeKind)
    (hpre : base <+: q) :
    entryContribution opts base (q, k) = some (q.drop base.length) := by
  unfold entryContribution entrySkipped stripPre
  cases k <;> simp [hsym, hfo, (isPrefixOf_true_iff base q).mpr hpre]

theorem link_files_single {fs : FS} {pattern destPath : FPath} {destIsRel : Bool}
    {opts : LinkOptions} (hglob : hasGlobP pattern = false)
    (hex : fsExists fs pattern = true) :
    link_files fs pattern destPath destIsRel (some opts) =
      (match (match walkDir fs pattern with
              | (p, NodeKind.dir) :: rest => rest
              | other => other).foldlM
          (processEntry opts destPath (fsIsDir fs destPath)
            (chooseBase destIsRel (fsIsDir fs destPath) pattern)) (fs, []) with
       | Except.error e => Except.error e
       | Except.ok st => Except.ok st.2) := by
  unfold link_files
  rw [show expand_sources fs pattern = Except.ok [pattern] from by simp [expand_sources, hglob]]
  dsimp only [Option.getD]
  rw [foldlM_except_single]
  unfold processRoot
  rw [if_pos hex]

theorem chooseBase_pre {destIsRel destIsDir : Bool} {root q : FPath} (h : root <+: q) :
    chooseBase destIsRel destIsDir root <+: q := by
  unfold chooseBase
  split
  · exact (dropLast_isPre root).trans h
  · exact h

/-- C6: on every successful `link_files` run over a directory source given
as a literal (non-wildcard) path, the returned relative paths are exactly
the regular files under the source in hard-link mode, and exactly all files
and directories under the source except the root itself in symbolic mode
without `symlink_files_only` — each taken relative to the invocation's
traversal base. -/
theorem claim_C6 (fs : FS) (pattern destPath : FPath) (destIsRel : Bool)
    (opts : LinkOptions) (res : List FPath)
    (hwf : WF fs) (hglob : hasGlobP pattern = false)
    (hdir : (pattern, NodeKind.dir) ∈ fs)
    (hok : link_files fs pattern destPath destIsRel (some opts) = Except.ok res) :
    (opts.symbolic = false →
      ∀ r, r ∈ res ↔ ∃ q, (q, NodeKind.file) ∈ fs ∧ pattern <+: q ∧
        r = q.drop (chooseBase destIsRel (fsIsDir fs destPath) pattern).length) ∧
    (opts.symbolic = true → opts.symlink_files_only = false →
      ∀ r, r ∈ res ↔ ∃ q k, (q, k) ∈ fs ∧ pattern <+: q ∧ q ≠ pattern ∧
        r = q.drop (chooseBase destIsRel (fsIsDir fs destPath) pattern).length) := by
  have hne : pattern ≠ [] := hwf.2.1 (pattern, NodeKind.dir) hdir
  have hfind := fsFind_eq_of_mem hwf.1 hdir
  have hex := fsExists_true_of_mem hwf.1 hdir
  rw [link_files_single hglob hex] at hok
  have htl : (match walkDir fs pattern with
      | (p, NodeKind.dir) :: rest => rest
      | other => other) = (walkDir fs pattern).tail := by
    rw [walkDir_eq_cons hfind]
    rfl
  rw [htl] at hok
  cases hfold : (walkDir fs pattern).tail.foldlM
      (processEntry opts destPath (fsIsDir fs destPath)
        (chooseBase destIsRel (fsIsDir fs destPath) pattern)) (fs, []) with
  | error e =>
    rw [hfold] at hok
    cases hok
  | ok st =>
    rw [hfold] at hok
    have hres : res = st.2 := (Except.ok.inj hok).symm
    have hacc := foldlM_processEntry_acc _ _ _ hfold
    simp only [List.nil_append] at hacc
    rw [hres, hacc]
    constructor
    · intro hsym r
      rw [List.mem_filterMap]
      constructor
      · rintro ⟨⟨q, k⟩, hmem, hcontr⟩
        obtain ⟨hqfs, hpre2, hneq⟩ := (walkDir_tail_mem_iff hwf hdir hne).mp hmem
        rw [contribution_hard hsym k (chooseBase_pre hpre2)] at hcontr
        by_cases hk : k = NodeKind.file
        · rw [if_pos hk] at hcontr
          exact ⟨q, hk ▸ hqfs, hpre2, (Option.some.inj hcontr).symm⟩
        · rw [if_neg hk] at hcontr
          cases hcontr
      · rintro ⟨q, hqfs, hpre2, hr⟩
        have hneq : q ≠ pattern := by
          intro h
          have h2 := fsFind_eq_of_mem hwf.1 hqfs
          rw [h, hfind] at h2
          cases Option.some.inj h2
        have hmem := (walkDir_tail_mem_iff hwf hdir hne).mpr ⟨hqfs, hpre2, hneq⟩
        refine ⟨(q, NodeKind.file), hmem, ?_⟩
        rw [contribution_hard hsym _ (chooseBase_pre hpre2), if_pos rfl, hr]
    · intro hsym hfo r
      rw [List.mem_filterMap]
      constructor
      · rintro ⟨⟨q, k⟩, hmem, hcontr⟩
        obtain ⟨hqfs, hpre2, hneq⟩ := (walkDir_tail_mem_iff hwf hdir hne).mp hmem
        rw [contribution_symbolic hsym hfo k (chooseBase_pre hpre2)] at hcontr
        exact ⟨q, k, hqfs, hpre2, hneq, (Option.some.inj hcontr).symm⟩
      · rintro ⟨q, k, hqfs, hpre2, hneq, hr⟩
        have hmem := (walkDir_tail_mem_iff hwf hdir hne).mpr ⟨hqfs, hpre2, hneq⟩
        refine ⟨(q, k), hmem, ?_⟩
        rw [contribution_symbolic hsym hfo k (chooseBase_pre hpre2), hr]

theorem mkDirs_noop {fs : FS} :
    ∀ ps : List FPath, (∀ r ∈ ps, fsFind fs r = some NodeKind.dir) →
      mkDirs fs ps = Except.ok fs := by
  intro ps
  induction ps with
  | nil => intro _; rfl
  | cons p ps ih =>
    intro h
    simp only [mkDirs, h p (List.mem_cons_self p ps)]
    exact ih (fun r hr => h r (List.mem_cons_of_mem p hr))

theorem createDirAll_noop {fs : FS} {p : FPath}
    (h : ∀ r ∈ prefixesOf p, fsFind fs r = some NodeKind.dir) :
    createDirAll fs p = Except.ok fs :=
  mkDirs_noop (prefixesOf p) h

theorem processEntry_eq_of_noskip {opts : LinkOptions} {destPath : FPath}
    {destIsDir : Bool} {base : FPath} {fs fs₁ : FS} {acc : List FPath}
    {path rel : FPath} {kind : NodeKind}
    (hnds : ¬ (kind = NodeKind.dir ∧ opts.symbolic = true))
    (hproc : kind = NodeKind.file ∨ opts.symbolic = true)
    (hrel : stripPre base path = some rel)
    (hcd : createDirAll fs (parentOf (destFileOf destPath destIsDir path rel)) = Except.ok fs₁) :
    processEntry opts destPath destIsDir base (fs, acc) (path, kind) =
      match handleExisting opts fs₁ (destFileOf destPath destIsDir path rel) with
      | Except.error e => Except.error e
      | Except.ok fs₂ =>
        match make_link fs₂ path kind (destFileOf destPath destIsDir path rel) opts with
        | Except.error e => Except.error e
        | Except.ok fs₃ => Except.ok (fs₃, acc ++ [rel]) := by
  have hnd2 : ¬ (kind = NodeKind.dir ∧ opts.symbolic = true ∧ opts.symlink_files_only = true) := by
    intro ⟨h1, h2, _⟩
    exact hnds ⟨h1, h2⟩
  unfold processEntry
  rcases hproc with hk | hs
  · subst hk
    have hsym : ¬ (NodeKind.file = NodeKind.dir ∧ opts.symbolic = true) := by
      intro ⟨h1, _⟩
      cases h1
    simp only [hrel, hcd]
    simp
  · simp only [hrel, hcd]
    have h1 : ¬ kind = NodeKind.dir := by
      intro h
      exact hnds ⟨h, hs⟩
    simp [hs, h1]

/-- C2: for a traversal entry that is actually linked (not a directory being
symbolically linked), when the computed destination exists: with `backup`
set the run continues through the backup rename and then the link, never
consulting `force`; with only `force` set the existing file is removed and
the link proceeds; with neither, the call fails with `AlreadyExists` and the
filesystem is unchanged (the preceding `create_dir_all` was a no-op when the
parent chain already existed, as it does when the destination exists on a
well-formed filesystem).  When the destination does not exist, `backup` and
`force` have no effect on the outcome. -/
theorem claim_C2 (opts : LinkOptions) (destPath : FPath) (destIsDir : Bool) (base : FPath)
    (fs fs₁ : FS) (acc : List FPath) (path rel : FPath) (kind : NodeKind)
    (hnds : ¬ (kind = NodeKind.dir ∧ opts.symbolic = true))
    (hproc : kind = NodeKind.file ∨ opts.symbolic = true)
    (hrel : stripPre base path = some rel)
    (hcd : createDirAll fs (parentOf (destFileOf destPath destIsDir path rel)) = Except.ok fs₁) :
    (fsExists fs₁ (destFileOf destPath destIsDir path rel) = true →
      (opts.backup = true →
        processEntry opts destPath destIsDir base (fs, acc) (path, kind) =
          match createBackupFS fs₁ (destFileOf destPath destIsDir path rel) opts.backup_suffix with
          | Except.error e => Except.error e
          | Except.ok fs₂ =>
            match make_link fs₂ path kind (destFileOf destPath destIsDir path rel) opts with
            | Except.error e => Except.error e
            | Except.ok fs₃ => Except.ok (fs₃, acc ++ [rel])) ∧
      (opts.backup = false → opts.force = true →
        fsFind fs₁ (destFileOf destPath destIsDir path rel) = some NodeKind.file →
        processEntry opts destPath destIsDir base (fs, acc) (path, kind) =
          match make_link (fsRemove fs₁ (destFileOf destPath destIsDir path rel)) path kind
              (destFileOf destPath destIsDir path rel) opts with
          | Except.error e => Except.error e
          | Except.ok fs₃ => Except.ok (fs₃, acc ++ [rel])) ∧
      (opts.backup = false → opts.force = false →
        processEntry opts destPath destIsDir base (fs, acc) (path, kind) =
          Except.error Err.alreadyExists ∧
        ((∀ r ∈ prefixesOf (parentOf (destFileOf destPath destIsDir path rel)),
            fsFind fs r = some NodeKind.dir) → fs₁ = fs))) ∧
    (fsExists fs₁ (destFileOf destPath destIsDir path rel) = false →
      ∀ b f : Bool,
        processEntry { opts with backup := b, force := f } destPath destIsDir base
            (fs, acc) (path, kind) =
          processEntry opts destPath destIsDir base (fs, acc) (path, kind)) := by
  constructor
  · intro hex
    refine ⟨fun hb => ?_, fun hb hf hfind => ?_, fun hb hf => ⟨?_, fun hpar => ?_⟩⟩
    · rw [processEntry_eq_of_noskip hnds hproc hrel hcd]
      simp only [handleExisting, hex, hb, if_true]
    · rw [processEntry_eq_of_noskip hnds hproc hrel hcd]
      simp only [handleExisting, hex, hb, hf, hfind, if_true, if_false, Bool.false_eq_true]
    · rw [processEntry_eq_of_noskip hnds hproc hrel hcd]
      simp only [handleExisting, hex, hb, hf, if_true, if_false, Bool.false_eq_true]
    · have := createDirAll_noop hpar
      rw [hcd] at this
      exact Except.ok.inj this
  · intro hnex b f
    rw [processEntry_eq_of_noskip (show ¬ (kind = NodeKind.dir ∧
          ({ opts with backup := b, force := f } : LinkOptions).symbolic = true) from hnds)
        (show kind = NodeKind.file ∨
          ({ opts with backup := b, force := f } : LinkOptions).symbolic = true from hproc)
        hrel hcd,
      processEntry_eq_of_noskip hnds hproc hrel hcd]
    simp only [handleExisting, hnex, if_false, Bool.false_eq_true]
    rfl

/-- C8: the first error from any stage aborts the whole call and is the
returned value — an expansion error is returned as is, an entry error inside
a root's traversal makes the whole fold return that error regardless of the
entries that would have followed, and likewise for a root error at the root
fold; the call as a whole returns either a single complete list or a single
error, never both. -/
theorem claim_C8 :
    (∀ (fs : FS) (source destPath : FPath) (destIsRel : Bool)
       (opts? : Option LinkOptions) (err : Err),
      expand_sources fs source = Except.error err →
      link_files fs source destPath destIsRel opts? = Except.error err) ∧
    (∀ (opts : LinkOptions) (destPath : FPath) (destIsDir : Bool) (base : FPath)
       (st st' : FS × List FPath) (e : FPath × NodeKind)
       (es₁ es₂ : List (FPath × NodeKind)) (err : Err),
      List.foldlM (processEntry opts destPath destIsDir base) st es₁ = Except.ok st' →
      processEntry opts destPath destIsDir base st' e = Except.error err →
      List.foldlM (processEntry opts destPath destIsDir base) st (es₁ ++ e :: es₂) =
        Except.error err) ∧
    (∀ (opts : LinkOptions) (destPath : FPath) (destIsDir destIsRel : Bool)
       (st st' : FS × List FPath) (r : FPath) (rs₁ rs₂ : List FPath) (err : Err),
      List.foldlM (processRoot opts destPath destIsDir destIsRel) st rs₁ = Except.ok st' →
      processRoot opts destPath destIsDir destIsRel st' r = Except.error err →
      List.foldlM (processRoot opts destPath destIsDir destIsRel) st (rs₁ ++ r :: rs₂) =
        Except.error err) ∧
    (∀ (fs : FS) (source destPath : FPath) (destIsRel : Bool) (opts? : Option LinkOptions),
      (∃ l, link_files fs source destPath destIsRel opts? = Except.ok l) ∨
      (∃ err, link_files fs source destPath destIsRel opts? = Except.error err)) := by
  refine ⟨fun fs source destPath destIsRel opts? err herr => ?_,
    fun opts destPath destIsDir base st st' e es₁ es₂ err h1 h2 =>
      foldlM_except_error _ es₁ st st' e es₂ err h1 h2,
    fun opts destPath destIsDir destIsRel st st' r rs₁ rs₂ err h1 h2 =>
      foldlM_except_error _ rs₁ st st' r rs₂ err h1 h2,
    fun fs source destPath destIsRel opts? => ?_⟩
  · unfold link_files
    rw [herr]
  · cases h : link_files fs source destPath destIsRel opts? with
    | error e => exact Or.inr ⟨e, rfl⟩
    | ok l => exact Or.inl ⟨l, rfl⟩

/-- C8 witness: a concrete failing entry (destination `d/f` exists, no
force, no backup) aborts the fold with exactly the `AlreadyExists` error,
when placed after an empty successful prefix. -/
theorem claim_C8_witness :
    List.foldlM (processEntry LinkOptions.default ["d"] false ["x"])
      (([(["x"], NodeKind.dir), (["x", "f"], NodeKind.file),
         (["d", "f"], NodeKind.file)] : FS), ([] : List FPath))
      (([] : List (FPath × NodeKind)) ++ (["x", "f"], NodeKind.file) :: []) =
      Except.error Err.alreadyExists :=
  claim_C8.2.1 LinkOptions.default ["d"] false ["x"]
    (([(["x"], NodeKind.dir), (["x", "f"], NodeKind.file),
       (["d", "f"], NodeKind.file)] : FS), ([] : List FPath))
    (([(["x"], NodeKind.dir), (["x", "f"], NodeKind.file),
       (["d", "f"], NodeKind.file)] : FS), ([] : List FPath))
    (["x", "f"], NodeKind.file) [] [] Err.alreadyExists rfl rfl

/-- C6 witness: on a concrete tree `src/{f1, sub/f2}` with destination
directory `dst` (absolute), the hard-link run returns exactly the two file
relative paths, as instantiated from the claim's iff at `sub/f2`. -/
theorem claim_C6_witness :
    (["sub", "f2"] : FPath) ∈ ([["f1"], ["sub", "f2"]] : List FPath) ↔
      ∃ q, (q, NodeKind.file) ∈
          ([(["src"], NodeKind.dir), (["src", "f1"], NodeKind.file),
            (["src", "sub"], NodeKind.dir), (["src", "sub", "f2"], NodeKind.file),
            (["dst"], NodeKind.dir)] : FS) ∧ ["src"] <+: q ∧
        (["sub", "f2"] : FPath) = q.drop (chooseBase false
          (fsIsDir ([(["src"], NodeKind.dir), (["src", "f1"], NodeKind.file),
            (["src", "sub"], NodeKind.dir), (["src", "sub", "f2"], NodeKind.file),
            (["dst"], NodeKind.dir)] : FS) ["dst"]) ["src"]).length :=
  (claim_C6 ([(["src"], NodeKind.dir), (["src", "f1"], NodeKind.file),
      (["src", "sub"], NodeKind.dir), (["src", "sub", "f2"], NodeKind.file),
      (["dst"], NodeKind.dir)] : FS) ["src"] ["dst"] false LinkOptions.default
    [["f1"], ["sub", "f2"]] (by unfold WF; decide) (by decide) (by decide) (by rfl)).1 rfl
    ["sub", "f2"]

/-- C2 witness: with a concrete existing destination `d/f`, neither backup
nor force set, the entry for source file `s/f` fails with `AlreadyExists`,
as instantiated from the claim. -/
theorem claim_C2_witness :
    processEntry LinkOptions.default ["d"] true ["s"]
      (([(["s"], NodeKind.dir), (["s", "f"], NodeKind.file), (["d"], NodeKind.dir),
         (["d", "f"], NodeKind.file)] : FS), ([] : List FPath))
      (["s", "f"], NodeKind.file) = Except.error Err.alreadyExists :=
  (((claim_C2 LinkOptions.default ["d"] true ["s"]
      ([(["s"], NodeKind.dir), (["s", "f"], NodeKind.file), (["d"], NodeKind.dir),
        (["d", "f"], NodeKind.file)] : FS)
      ([(["s"], NodeKind.dir), (["s", "f"], NodeKind.file), (["d"], NodeKind.dir),
        (["d", "f"], NodeKind.file)] : FS)
      [] ["s", "f"] ["f"] NodeKind.file (by decide) (Or.inl rfl) rfl rfl).1
    (by rfl)).2.2 rfl rfl).1

theorem drop_len_sub_one {l : FPath} (h : l ≠ []) :
    l.drop (l.length - 1) = [l.getLastD ""] := by
  induction l with
  | nil => cases h rfl
  | cons a t ih =>
    cases t with
    | nil => rfl
    | cons b t2 =>
      have hlen : (a :: b :: t2).length - 1 = ((b :: t2).length - 1) + 1 := by
        simp
      rw [hlen, List.drop_succ_cons, ih (by simp)]
      simp [List.getLastD_cons]

theorem stripPre_chooseBase {dr did : Bool} {root : FPath} (h : root ≠ []) :
    stripPre (chooseBase dr did root) root =
      some (if dr && did then [root.getLastD ""] else []) := by
  unfold chooseBase stripPre
  by_cases hc : (dr && did) = true
  · rw [if_pos hc, if_pos hc,
      if_pos ((isPrefixOf_true_iff _ _).mpr (dropLast_isPre root))]
    rw [List.length_dropLast, drop_len_sub_one h]
  · rw [if_neg hc, if_neg hc,
      if_pos ((isPrefixOf_true_iff _ _).mpr (List.prefix_refl root))]
    rw [List.drop_length]

theorem getLastD_concat (l : FPath) (a d : String) : (l ++ [a]).getLastD d = a := by
  rw [List.getLastD_eq_getLast?, List.getLast?_concat]
  rfl

theorem destFileOf_file_root {destPath root : FPath} (dr did : Bool) :
    destFileOf destPath did root (if dr && did then [root.getLastD ""] else []) =
      if did then destPath ++ [root.getLastD ""] else destPath ++ [""] := by
  unfold destFileOf
  cases did with
  | false =>
    simp
  | true =>
    cases dr with
    | false => simp
    | true => simp

theorem createDirAll_nil (fs : FS) : createDirAll fs [] = Except.ok fs := rfl

theorem processRoot_file {opts : LinkOptions} {destPath : FPath} {did dr : Bool}
    {st : FS × List FPath} {root : FPath}
    (hfind : fsFind st.1 root = some NodeKind.file) :
    processRoot opts destPath did dr st root =
      processEntry opts destPath did (chooseBase dr did root) st (root, NodeKind.file) := by
  unfold processRoot
  rw [if_pos (show fsExists st.1 root = true by simp [fsExists, hfind])]
  rw [walkDir_file hfind]
  exact foldlM_except_single _ st (root, NodeKind.file)

theorem processEntry_flat {opts : LinkOptions} {destPath : FPath} {fs : FS}
    {acc : List FPath} {root : FPath}
    (hc : createDirAll fs destPath.dropLast = Except.ok fs)
    (hno : fsFind fs (destPath ++ [""]) = none)
    (hnd : fsFind fs destPath = none) :
    processEntry opts destPath false root (fs, acc) (root, NodeKind.file) =
      Except.error Err.notFound := by
  have hrel : stripPre root root = some [] := by
    unfold stripPre
    rw [if_pos ((isPrefixOf_true_iff _ _).mpr (List.prefix_refl root))]
    rw [List.drop_length]
  have hdf : destFileOf destPath false root [] = destPath ++ [""] := by
    simp [destFileOf]
  have hsl : (destPath ++ [""]).getLastD "x" = "" := getLastD_concat destPath "" "x"
  have hcd : createDirAll fs (parentOf (destFileOf destPath false root [])) = Except.ok fs := by
    rw [hdf]
    unfold parentOf
    rw [if_pos hsl, List.dropLast_concat]
    exact hc
  rw [processEntry_eq_of_noskip (by simp) (Or.inl rfl) hrel hcd, hdf]
  have hnex : fsExists fs (destPath ++ [""]) = false := by
    simp [fsExists, hno]
  simp only [handleExisting, hnex, Bool.false_eq_true, if_false]
  unfold make_link
  rw [if_pos hsl, List.dropLast_concat, hnd]

/-- C1 (amended): the traversal base is the root's parent exactly when the
destination argument is a relative path that currently exists as a
directory — observable on a single-file literal source: with an existing
destination directory the one relative path returned carries the file's own
name exactly when the destination argument is relative, and is empty
otherwise; when the destination does not exist as a directory the joined
destination path acquires a trailing separator (`dest.join("")`) and the
run fails with `NotFound` (`ENOENT`). -/
theorem claim_C1_amended (fs : FS) (root destPath : FPath) (destIsRel : Bool)
    (opts : LinkOptions)
    (hwf : WF fs) (hfile : (root, NodeKind.file) ∈ fs) (hglob : hasGlobP root = false)
    (hsym : opts.symbolic = false)
    (hname : ¬ root.getLastD "" = "")
    (hnd : fsExists fs (destPath ++ [root.getLastD ""]) = false)
    (hnd2 : fsIsDir fs destPath = false →
      fsFind fs destPath = none ∧ fsFind fs (destPath ++ [""]) = none)
    (hc1 : fsIsDir fs destPath = true → createDirAll fs destPath = Except.ok fs)
    (hc2 : fsIsDir fs destPath = false →
      createDirAll fs destPath.dropLast = Except.ok fs) :
    (fsIsDir fs destPath = true →
      link_files fs root destPath destIsRel (some opts) =
        Except.ok [if destIsRel then [root.getLastD ""] else []]) ∧
    (fsIsDir fs destPath = false →
      link_files fs root destPath destIsRel (some opts) = Except.error Err.notFound) := by
  have hne : root ≠ [] := hwf.2.1 _ hfile
  have hfind := fsFind_eq_of_mem hwf.1 hfile
  have hex := fsExists_true_of_mem hwf.1 hfile
  constructor
  · intro hdd
    rw [link_files_single hglob hex, walkDir_file hfind, hdd]
    show (match List.foldlM (processEntry opts destPath true (chooseBase destIsRel true root))
        (fs, []) [(root, NodeKind.file)] with
      | Except.error e => Except.error e
      | Except.ok st => Except.ok st.2) = _
    rw [foldlM_except_single]
    have hrel := @stripPre_chooseBase destIsRel true root hne
    have hdf := @destFileOf_file_root destPath root destIsRel true
    rw [if_pos rfl] at hdf
    have hsl : (destPath ++ [root.getLastD ""]).getLastD "x" = root.getLastD "" :=
      getLastD_concat destPath (root.getLastD "") "x"
    have hns : ¬ (destPath ++ [root.getLastD ""]).getLastD "x" = "" := by
      rw [hsl]
      exact hname
    have hcd : createDirAll fs (parentOf (destFileOf destPath true root
        (if destIsRel && true then [root.getLastD ""] else []))) = Except.ok fs := by
      rw [hdf]
      unfold parentOf
      rw [if_neg hns, List.dropLast_concat]
      exact hc1 hdd
    rw [processEntry_eq_of_noskip (by simp) (Or.inl rfl) hrel hcd, hdf]
    simp only [handleExisting, hnd, Bool.false_eq_true, if_false]
    unfold make_link
    rw [if_neg hns]
    simp only [hsym, Bool.false_eq_true, if_false, hnd]
    simp
  · intro hdd
    obtain ⟨hnd0, hno⟩ := hnd2 hdd
    rw [link_files_single hglob hex, walkDir_file hfind, hdd]
    show (match List.foldlM (processEntry opts destPath false (chooseBase destIsRel false root))
        (fs, []) [(root, NodeKind.file)] with
      | Except.error e => Except.error e
      | Except.ok st => Except.ok st.2) = _
    rw [foldlM_except_single]
    rw [show chooseBase destIsRel false root = root from by simp [chooseBase]]
    rw [processEntry_flat (hc2 hdd) hno hnd0]

/-- C1 counterexample: for the literal (non-wildcard) source `s/f` with the
relative destination `d` existing as a directory, the code's base is the
parent `s` — observable as the returned relative path `f` — while the
claim's rule (parent exactly when the pattern was a wildcard expansion)
demands the root `s/f` itself, i.e. an empty relative path. -/
theorem claim_C1_counterexample :
    chooseBase true true ["s", "f"] = ["s"] ∧
    specC1Base (hasGlobP ["s", "f"]) true ["s", "f"] = ["s", "f"] ∧
    ¬ chooseBase true true ["s", "f"] = specC1Base (hasGlobP ["s", "f"]) true ["s", "f"] ∧
    link_files [(["s"], NodeKind.dir), (["s", "f"], NodeKind.file), (["d"], NodeKind.dir)]
      ["s", "f"] ["d"] true none = Except.ok [["f"]] :=
  ⟨rfl, by decide, by decide, by rfl⟩

/-- C1 amended witness: the amended theorem applied twice — source file
`s/f` with the relative destination directory `d` returns the file's own
name as the relative path, and the same source with the non-existent
destination `out` fails with `NotFound`. -/
theorem claim_C1_amended_witness :
    (link_files [(["s"], NodeKind.dir), (["s", "f"], NodeKind.file), (["d"], NodeKind.dir)]
        ["s", "f"] ["d"] true (some LinkOptions.default) =
      Except.ok [if true then [(["s", "f"] : FPath).getLastD ""] else []]) ∧
    (link_files [(["s"], NodeKind.dir), (["s", "f"], NodeKind.file)]
        ["s", "f"] ["out"] true (some LinkOptions.default) =
      Except.error Err.notFound) :=
  ⟨(claim_C1_amended [(["s"], NodeKind.dir), (["s", "f"], NodeKind.file), (["d"], NodeKind.dir)]
      ["s", "f"] ["d"] true LinkOptions.default (by unfold WF; decide) (by decide) (by decide)
      rfl (by decide) (by decide) (by decide)
      (fun _ => rfl) (fun h => absurd h (by decide))).1 rfl,
    (claim_C1_amended [(["s"], NodeKind.dir), (["s", "f"], NodeKind.file)]
      ["s", "f"] ["out"] true LinkOptions.default (by unfold WF; decide) (by decide) (by decide)
      rfl (by decide) (by decide) (by decide)
      (fun h => absurd h (by decide)) (fun _ => rfl)).2 rfl⟩

/-- C7 counterexample: the claim says a single-file root is processed with
an empty relative path; with a relative destination that is an existing
directory the run instead records the file's own name as the relative
path. -/
theorem claim_C7_counterexample :
    link_files [(["s"], NodeKind.dir), (["s", "f"], NodeKind.file), (["d"], NodeKind.dir)]
      ["s", "f"] ["d"] true none = Except.ok [["f"]] ∧
    ¬ ([["f"]] : List FPath) = [([] : FPath)] :=
  ⟨by rfl, by decide⟩

/-- C7 (amended): the root entry is suppressed exactly when it is a
directory (the remaining fold runs on the walk's tail); a single-file root
is walked as exactly one entry; its relative path is empty exactly when the
base is the root itself (i.e. unless the destination is relative and an
existing directory, in which case it is the file's own name); and whenever
the destination is an existing directory the entry's destination path is
the destination joined with the source file's name, in both cases. -/
theorem claim_C7_amended :
    (∀ (opts : LinkOptions) (destPath : FPath) (did dr : Bool) (st : FS × List FPath)
       (root : FPath),
      fsFind st.1 root = some NodeKind.dir →
      processRoot opts destPath did dr st root =
        ((walkDir st.1 root).tail).foldlM
          (processEntry opts destPath did (chooseBase dr did root)) st) ∧
    (∀ (fs : FS) (root : FPath) (k : NodeKind), fsFind fs root = some k →
      ∃ rest, walkDir fs root = (root, k) :: rest) ∧
    (∀ (fs : FS) (root : FPath), fsFind fs root = some NodeKind.file →
      walkDir fs root = [(root, NodeKind.file)]) ∧
    (∀ (dr did : Bool) (root : FPath), root ≠ [] →
      stripPre (chooseBase dr did root) root =
        some (if dr && did then [root.getLastD ""] else []) ∧
      ((dr && did) = false ↔
        (if dr && did then [root.getLastD ""] else []) = ([] : FPath))) ∧
    (∀ (destPath root : FPath) (dr : Bool),
      destFileOf destPath true root (if dr && true then [root.getLastD ""] else []) =
        destPath ++ [root.getLastD ""]) := by
  refine ⟨fun opts destPath did dr st root hfind => ?_,
    fun fs root k h => ⟨_, walkDir_eq_cons h⟩,
    fun fs root h => walkDir_file h,
    fun dr did root h => ⟨stripPre_chooseBase h, ?_⟩,
    fun destPath root dr => ?_⟩
  · unfold processRoot
    rw [if_pos (show fsExists st.1 root = true by simp [fsExists, hfind])]
    rw [walkDir_eq_cons hfind]
    rfl
  · cases hc : (dr && did) <;> simp
  · have h := @destFileOf_file_root destPath root dr true
    rw [h, if_pos rfl]

/-- C7 amended witness: a concrete directory root has its first walk entry
suppressed, leaving the fold over the tail. -/
theorem claim_C7_amended_witness :
    processRoot LinkOptions.default ["dst"] true false
      (([(["s"], NodeKind.dir), (["s", "f"], NodeKind.file), (["dst"], NodeKind.dir)] : FS),
        ([] : List FPath)) ["s"] =
      ((walkDir [(["s"], NodeKind.dir), (["s", "f"], NodeKind.file), (["dst"], NodeKind.dir)]
          ["s"]).tail).foldlM
        (processEntry LinkOptions.default ["dst"] true (chooseBase false true ["s"]))
        (([(["s"], NodeKind.dir), (["s", "f"], NodeKind.file), (["dst"], NodeKind.dir)] : FS),
          ([] : List FPath)) :=
  claim_C7_amended.1 LinkOptions.default ["dst"] true false
    (([(["s"], NodeKind.dir), (["s", "f"], NodeKind.file), (["dst"], NodeKind.dir)] : FS),
      ([] : List FPath)) ["s"] rfl

/-- C9 counterexample: with the wildcard `d/*` matching the two files `d/a`
and `d/b` and the non-existent destination `out`, `link_files` does not
fail with `InvalidPath`: the empty relative path of the first match makes
its destination `out.join("") = "out/"`, a trailing-separator path the link
syscall rejects, so the call fails with `NotFound` on the first root. -/
theorem claim_C9_counterexample :
    link_files [(["d"], NodeKind.dir), (["d", "a"], NodeKind.file),
        (["d", "b"], NodeKind.file)] ["d", "*"] ["out"] true none =
      Except.error Err.notFound ∧
    ¬ (Err.notFound = Err.invalidPath) :=
  ⟨by rfl, by decide⟩

/-- C9 (amended): when the wildcard expands to one or more roots whose
first is a single file and the single-component destination does not exist,
`link_files` under default options does not fail fast with `InvalidPath`
(no such error exists in the code) nor place later roots by some rule: the
first root's destination is `dest.join("") `, a trailing-separator path, so
the very first link attempt fails with `NotFound` and nothing is linked. -/
theorem claim_C9_amended (fs : FS) (pattern destPath : FPath) (destIsRel : Bool)
    (r₁ : FPath) (rs : List FPath)
    (hwf : WF fs)
    (hexp : expand_sources fs pattern = Except.ok (r₁ :: rs))
    (h1 : (r₁, NodeKind.file) ∈ fs)
    (hdp : destPath.dropLast = [])
    (hnd : fsFind fs destPath = none)
    (hno : fsFind fs (destPath ++ [""]) = none) :
    link_files fs pattern destPath destIsRel none = Except.error Err.notFound := by
  have hdid : fsIsDir fs destPath = false := by simp [fsIsDir, hnd]
  have hf1 : fsFind fs r₁ = some NodeKind.file := fsFind_eq_of_mem hwf.1 h1
  have hs1 : processRoot LinkOptions.default destPath false destIsRel (fs, []) r₁ =
      Except.error Err.notFound := by
    rw [processRoot_file hf1]
    rw [show chooseBase destIsRel false r₁ = r₁ from by simp [chooseBase]]
    exact processEntry_flat (by rw [hdp]; exact createDirAll_nil fs) hno hnd
  unfold link_files
  rw [hexp]
  dsimp only [Option.getD]
  rw [hdid]
  simp only [List.foldlM, hs1, bind, Except.bind]

/-- C9 amended witness: the concrete two-file wildcard run, via the amended
theorem. -/
theorem claim_C9_amended_witness :
    link_files [(["d"], NodeKind.dir), (["d", "a"], NodeKind.file),
        (["d", "b"], NodeKind.file)] ["d", "*"] ["out"] false none =
      Except.error Err.notFound :=
  claim_C9_amended [(["d"], NodeKind.dir), (["d", "a"], NodeKind.file),
      (["d", "b"], NodeKind.file)] ["d", "*"] ["out"] false ["d", "a"] [["d", "b"]]
    (by unfold WF; decide) (by rfl) (by decide) rfl rfl rfl
